import Mathlib

/-!
Verification of the delta-encoding core of `src/algo.ts` (unisync).

The source splits an original buffer into fixed-size chunks, indexes them
by an Adler-32 weak checksum (carrying a SHA-1 strong checksum for
confirmation), slides a chunk-sized window over the target emitting
`CopyRef` / `Literal` instructions, and rebuilds the target from the
original plus the instructions.

Modelling conventions:
* a `Buffer` is a list of byte values (`List Nat`);
* the JS `while` loops are modelled with an explicit fuel argument so that
  every definition is structurally recursive and computable; the chosen
  top-level fuel (`length + 1`) is provably sufficient whenever the source
  loop terminates (in particular whenever `chunkSizeBytes > 0`);
* the JS comparison `pos <= len - c` is over integers, so it is rendered
  as `pos + c ≤ len` (natural-number subtraction would differ for `c > len`);
* the SHA-1 strong checksum is modelled as the chunk's byte content itself:
  an injective stand-in for the hex digest, matching the design assumption
  that strong-checksum collisions are cryptographically implausible.  The
  Adler-32 weak checksum is modelled faithfully, including its collisions.
-/

/-- A byte buffer: the unit of all operations in `algo.ts`. -/
abbrev Buffer := List Nat

/-- Weak checksum: Adler-32 of the buffer (`calculateWeakBlockChecksum`).
`a` starts at 1, `b` at 0, both reduced mod 65521; the library packs the
result as `(b << 16) | a`, an injective packing of the pair `(b, a)`, so
equality of packed values agrees with this `Nat` rendering. -/
def adler32 (b : Buffer) : Nat :=
  let p := b.foldl
    (fun (ab : Nat × Nat) (x : Nat) =>
      let a := (ab.1 + x) % 65521
      (a, (ab.2 + a) % 65521))
    ((1, 0) : Nat × Nat)
  p.2 * 65536 + p.1

/-- Strong checksum (`calculateStrongBlockChecksum`): SHA-1 in the source,
modelled as the byte content itself (an injective idealisation). -/
def strongChecksum (b : Buffer) : Buffer := b

/-- One entry of the checksum index: the chunk's position in the original
and its strong checksum (`{ index, strong }` in the source). -/
structure ChecksumEntry where
  index : Nat
  strong : Buffer
deriving DecidableEq, Repr

/-- The checksum index, a JS `Map<number, ChecksumEntry>` modelled as an
insertion list; newer insertions sit at the head. -/
abbrev CMap := List (Nat × ChecksumEntry)

/-- `Map.set`: the most recent insertion for a key wins (last-write-wins),
which `mapGet` realises by scanning from the head. -/
def mapSet (m : CMap) (k : Nat) (e : ChecksumEntry) : CMap := (k, e) :: m

/-- `Map.get` (and `Map.has` via `Option.isSome`): first entry from the
head whose key matches, i.e. the most recently inserted one. -/
def mapGet : CMap → Nat → Option ChecksumEntry
  | [], _ => none
  | (k, e) :: m, w => if w = k then some e else mapGet m w

/-- The `for` loop of `divideToChunks`, with fuel standing for the number
of remaining iterations; one iteration takes `chunkSizeBytes` bytes off the
front.  With `chunkSizeBytes = 0` and a nonempty buffer the source loop
never terminates, which shows up here as the fuel running out. -/
def divideToChunksGo : Nat → Buffer → Nat → List Buffer
  | 0, _, _ => []
  | fuel + 1, file, c =>
    if file.isEmpty then []
    else file.take c :: divideToChunksGo fuel (file.drop c) c

/-- `divideToChunks(file, chunkSizeBytes)`: split into consecutive slices
of `chunkSizeBytes` bytes, the last possibly shorter.  `length + 1` units
of fuel are enough for every terminating run of the source loop. -/
def divideToChunks (file : Buffer) (c : Nat) : List Buffer :=
  divideToChunksGo (file.length + 1) file c

/-- The `forEach` building the checksum index: insert each chunk's weak
checksum with its position and strong checksum, in order. -/
def buildMapGo : List Buffer → Nat → CMap → CMap
  | [], _, m => m
  | ch :: rest, i, m =>
    buildMapGo rest (i + 1) (mapSet m (adler32 ch) ⟨i, strongChecksum ch⟩)

/-- The checksum index built from the original's chunks. -/
def buildChecksumMap (chunks : List Buffer) : CMap :=
  buildMapGo chunks 0 []

/-- An instruction of the delta: either a reference to an original chunk
(a plain `number` in the source) or a literal byte run (a `Buffer`). -/
inductive Instruction where
  | copyRef (index : Nat)
  | literal (bytes : Buffer)
deriving DecidableEq, Repr

/-- Whether an instruction is a `literal`. -/
def Instruction.isLit : Instruction → Bool
  | .literal _ => true
  | _ => false

/-- The guarded match test shared by both scan loops: the window at `pos`
must still fit (`pos <= targetData.length - chunkSizeBytes` in JS integer
arithmetic), its weak checksum must be a key of the index, and the indexed
entry's strong checksum must equal the window's.  Returns the entry's
chunk index on a verified match. -/
def matchAt (cmap : CMap) (c : Nat) (t : Buffer) (pos : Nat) : Option Nat :=
  if pos + c ≤ t.length then
    match mapGet cmap (adler32 ((t.drop pos).take c)) with
    | some e =>
      if e.strong = strongChecksum ((t.drop pos).take c) then some e.index else none
    | none => none
  else none

/-- The flush of the pending literal accumulator: emitted as one `Literal`
instruction when nonempty, nothing otherwise. -/
def flushLiteral (pending : Buffer) : List Instruction :=
  if pending.isEmpty then [] else [.literal pending]

/-- The `while` loop of `generateInstructions`.  `pending` is the
`differingBuffer` accumulator, flattened (the source keeps a list of
one-byte slices and concatenates on flush, which is the same byte run).
On a verified match: flush the pending literal, emit the chunk index,
advance by `chunkSizeBytes`; otherwise consume one byte.  After the loop
the pending literal is flushed. -/
def genGo (cmap : CMap) (c : Nat) (t : Buffer) : Nat → Nat → Buffer → List Instruction
  | 0, _, _ => []
  | fuel + 1, pos, pending =>
    if pos < t.length then
      match matchAt cmap c t pos with
      | some idx =>
        flushLiteral pending ++ .copyRef idx :: genGo cmap c t fuel (pos + c) []
      | none => genGo cmap c t fuel (pos + 1) (pending ++ [t.getD pos 0])
    else flushLiteral pending

/-- `generateInstructions(originalData, targetData, chunkSizeBytes)`. -/
def generateInstructions (o t : Buffer) (c : Nat) : List Instruction :=
  genGo (buildChecksumMap (divideToChunks o c)) c t (t.length + 1) 0 []

/-- The `while` loop of `findDifferingChunks`: it runs only while a full
window fits (`pos <= len - c`), pushes the window and advances by one byte
on a miss, advances by a whole chunk on a verified match. -/
def diffGo (cmap : CMap) (c : Nat) (t : Buffer) : Nat → Nat → List Buffer
  | 0, _ => []
  | fuel + 1, pos =>
    if pos + c ≤ t.length then
      match matchAt cmap c t pos with
      | some _ => diffGo cmap c t fuel (pos + c)
      | none => (t.drop pos).take c :: diffGo cmap c t fuel (pos + 1)
    else []

/-- `findDifferingChunks(originalData, targetData, chunkSizeBytes)`. -/
def findDifferingChunks (o t : Buffer) (c : Nat) : List Buffer :=
  diffGo (buildChecksumMap (divideToChunks o c)) c t (t.length + 1) 0

/-- The `forEach` of `rebuildTargetFromOriginal`: a chunk index looks up
the original chunk table (yielding `undefined`, i.e. `none`, when out of
range, exactly as `originalChunks[instruction]` does), a literal passes
through. -/
def rebuildChunks (chunks : List Buffer) : List Instruction → List (Option Buffer)
  | [] => []
  | .copyRef i :: rest => chunks[i]? :: rebuildChunks chunks rest
  | .literal b :: rest => some b :: rebuildChunks chunks rest

/-- `Buffer.concat`: concatenates the collected pieces, throwing (here:
`none`) if any piece is `undefined`. -/
def concatChunks : List (Option Buffer) → Option Buffer
  | [] => some []
  | none :: _ => none
  | some b :: rest => (concatChunks rest).map (b ++ ·)

/-- `rebuildTargetFromOriginal(originalData, instructions, chunkSizeBytes)`:
`none` models the `Buffer.concat` throw on a dangling chunk reference. -/
def rebuildTargetFromOriginal (o : Buffer) (ins : List Instruction) (c : Nat) :
    Option Buffer :=
  concatChunks (rebuildChunks (divideToChunks o c) ins)

/-- `b` is a contiguous slice of `t` (some `subarray` of it). -/
def isSlice (b t : Buffer) : Prop :=
  ∃ s, b = (t.drop s).take b.length

/-- A checksum-index entry is well formed for a chunk table when its index
points at a chunk whose strong checksum it carries. -/
def EntryOk (chunks : List Buffer) (e : ChecksumEntry) : Prop :=
  ∃ ch, chunks[e.index]? = some ch ∧ e.strong = strongChecksum ch

/-- The byte contribution of one instruction during reconstruction. -/
def instructionBytes (chunks : List Buffer) : Instruction → Buffer
  | .copyRef i => chunks.getD i []
  | .literal b => b

/-! ### Chunking lemmas -/

theorem divideToChunksGo_flatten (c : Nat) (hc : 0 < c) :
    ∀ fuel b, (b : Buffer).length < fuel →
      (divideToChunksGo fuel b c).flatten = b := by
  intro fuel
  induction fuel with
  | zero => intro b hb; omega
  | succ fuel ih =>
    intro b hb
    by_cases hbe : b.isEmpty
    · simp [divideToChunksGo, hbe, List.isEmpty_iff.mp hbe]
    · have hlen : 0 < b.length := by
        cases b with
        | nil => simp at hbe
        | cons x xs => simp
      rw [divideToChunksGo, if_neg (by simp [hbe])]
      rw [List.flatten_cons, ih (b.drop c) (by simp; omega)]
      exact List.take_append_drop c b

theorem divideToChunksGo_length (c : Nat) (hc : 0 < c) :
    ∀ fuel b, (b : Buffer).length < fuel →
      (divideToChunksGo fuel b c).length = (b.length + c - 1) / c := by
  intro fuel
  induction fuel with
  | zero => intro b hb; omega
  | succ fuel ih =>
    intro b hb
    by_cases hbe : b.isEmpty
    · have := List.isEmpty_iff.mp hbe
      subst this
      rw [divideToChunksGo, if_pos (by simp)]
      simp only [List.length_nil]
      exact (Nat.div_eq_of_lt (by omega)).symm
    · have hlen : 0 < b.length := by
        cases b with
        | nil => simp at hbe
        | cons x xs => simp
      rw [divideToChunksGo, if_neg (by simp [hbe])]
      rw [List.length_cons, ih (b.drop c) (by simp; omega)]
      rw [List.length_drop]
      rcases Nat.lt_or_ge c b.length with hcb | hcb
      · have h1 : b.length - c + c - 1 = b.length - 1 := by omega
        have h2 : b.length + c - 1 = b.length - 1 + c := by omega
        rw [h1, h2, Nat.add_div_right _ hc]
      · have h1 : b.length - c = 0 := by omega
        rw [h1]
        have h2 : (0 + c - 1) / c = 0 := Nat.div_eq_of_lt (by omega)
        rw [h2]
        have h3 : (b.length + c - 1) / c = 1 :=
          Nat.div_eq_of_lt_le (by omega) (by omega)
        rw [h3]

theorem divideToChunksGo_getD (c : Nat) (hc : 0 < c) :
    ∀ fuel b i, (b : Buffer).length < fuel →
      i < (divideToChunksGo fuel b c).length →
      (divideToChunksGo fuel b c).getD i [] = (b.drop (i * c)).take c := by
  intro fuel
  induction fuel with
  | zero => intro b i hb; omega
  | succ fuel ih =>
    intro b i hb hi
    by_cases hbe : b.isEmpty
    · rw [divideToChunksGo, if_pos hbe] at hi; simp at hi
    · have hbne : b ≠ [] := by simpa [List.isEmpty_iff] using hbe
      have hlen : 0 < b.length := List.length_pos.mpr hbne
      rw [divideToChunksGo, if_neg (by simp [hbe])] at hi ⊢
      cases i with
      | zero => simp
      | succ i =>
        simp only [List.getD_cons_succ]
        rw [ih (b.drop c) i (by simp; omega) (by simpa using hi)]
        rw [List.drop_drop, Nat.succ_mul, Nat.add_comm c (i * c)]

theorem divideToChunksGo_sizes (c : Nat) (hc : 0 < c) :
    ∀ fuel b i, (b : Buffer).length < fuel →
      i + 1 < (divideToChunksGo fuel b c).length →
      ((divideToChunksGo fuel b c).getD i []).length = c := by
  intro fuel
  induction fuel with
  | zero => intro b i hb; omega
  | succ fuel ih =>
    intro b i hb hi
    by_cases hbe : b.isEmpty
    · rw [divideToChunksGo, if_pos hbe] at hi; simp at hi
    · have hbne : b ≠ [] := by simpa [List.isEmpty_iff] using hbe
      have hlen : 0 < b.length := List.length_pos.mpr hbne
      rw [divideToChunksGo, if_neg (by simp [hbe])] at hi ⊢
      cases i with
      | zero =>
        -- there is a later chunk, so at least c bytes were present
        simp only [List.getD_cons_zero, List.length_take]
        simp only [List.length_cons] at hi
        by_contra hne
        have hlt : b.length < c := by
          rcases Nat.lt_or_ge b.length c with h | h
          · exact h
          · exact absurd (by omega : min c b.length = c) hne
        have hnil : b.drop c = [] := List.drop_eq_nil_iff.mpr (by omega)
        have hz : divideToChunksGo fuel (b.drop c) c = [] := by
          cases fuel with
          | zero => rfl
          | succ fuel => rw [divideToChunksGo, if_pos (by simp [hnil])]
        rw [hz] at hi; simp at hi
      | succ i =>
        simp only [List.getD_cons_succ]
        exact ih (b.drop c) i (by simp; omega) (by simpa using hi)

theorem getLastD_irrel :
    ∀ (l : List Buffer) (d1 d2 : Buffer), l ≠ [] → l.getLastD d1 = l.getLastD d2 := by
  intro l
  induction l with
  | nil => intro d1 d2 h; exact absurd rfl h
  | cons a as ih =>
    intro d1 d2 _
    cases as with
    | nil => rfl
    | cons x xs =>
      simp only [List.getLastD_cons]

theorem divideToChunksGo_last (c : Nat) (hc : 0 < c) :
    ∀ fuel b, (b : Buffer).length < fuel → b ≠ [] →
      ((divideToChunksGo fuel b c).getLastD []).length =
        if b.length % c = 0 then c else b.length % c := by
  intro fuel
  induction fuel with
  | zero => intro b hb; omega
  | succ fuel ih =>
    intro b hb hbne
    have hbe : ¬ b.isEmpty := by simpa [List.isEmpty_iff] using hbne
    rw [divideToChunksGo, if_neg (by simp [List.isEmpty_iff, hbne])]
    have hlen : 0 < b.length := List.length_pos.mpr hbne
    by_cases hrest : b.drop c = []
    · have hz : divideToChunksGo fuel (b.drop c) c = [] := by
        cases fuel with
        | zero => rfl
        | succ fuel => rw [divideToChunksGo, if_pos (by simp [hrest])]
      have hble : b.length ≤ c := by
        rw [List.drop_eq_nil_iff] at hrest
        omega
      rw [hz]
      simp only [List.getLastD_cons, List.getLastD_nil, List.length_take]
      rcases Nat.lt_or_ge b.length c with h | h
      · have hm : b.length % c = b.length := Nat.mod_eq_of_lt h
        rw [hm, if_neg (by omega)]; omega
      · have hbc : b.length = c := by omega
        rw [hbc]; simp
    · have hcb : c ≤ b.length := by
        by_contra h
        exact hrest (List.drop_eq_nil_iff.mpr (by omega))
      have hznil : divideToChunksGo fuel (b.drop c) c ≠ [] := by
        cases fuel with
        | zero => exfalso; omega
        | succ fuel =>
          rw [divideToChunksGo, if_neg (by simp [List.isEmpty_iff, hrest])]
          simp
      rw [List.getLastD_cons, getLastD_irrel _ _ [] hznil]
      rw [ih (b.drop c) (by simp; omega) hrest]
      have hmod : (b.length - c) % c = b.length % c := by
        conv_rhs => rw [show b.length = b.length - c + c by omega]
        rw [Nat.add_mod_right]
      simp [hmod]

/-- Claim C3: `divideToChunks` on a buffer of length `L` with chunk size
`C > 0` produces exactly `⌈L/C⌉` chunks, each of size `C` except possibly
the last, whose size is `L % C` (or `C` when `C ∣ L`), and flattening the
chunks in order reproduces the buffer. -/
theorem C3_chunking (b : Buffer) (c : Nat) (hc : 0 < c) :
    (divideToChunks b c).length = (b.length + c - 1) / c ∧
    (divideToChunks b c).flatten = b ∧
    (∀ i, i + 1 < (divideToChunks b c).length →
      ((divideToChunks b c).getD i []).length = c) ∧
    (b ≠ [] → ((divideToChunks b c).getLastD []).length =
      if b.length % c = 0 then c else b.length % c) := by
  refine ⟨?_, ?_, ?_, ?_⟩
  · exact divideToChunksGo_length c hc _ b (by omega)
  · exact divideToChunksGo_flatten c hc _ b (by omega)
  · intro i hi; exact divideToChunksGo_sizes c hc _ b i (by omega) hi
  · intro hb; exact divideToChunksGo_last c hc _ b (by omega) hb

/-- Witness for C3 at `b = [1,…,10]`, `c = 3`. -/
theorem C3_chunking_witness :
    (divideToChunks [1, 2, 3, 4, 5, 6, 7, 8, 9, 10] 3).length = 4 ∧
    (divideToChunks [1, 2, 3, 4, 5, 6, 7, 8, 9, 10] 3).flatten =
      [1, 2, 3, 4, 5, 6, 7, 8, 9, 10] ∧
    ((divideToChunks [1, 2, 3, 4, 5, 6, 7, 8, 9, 10] 3).getD 1 []).length = 3 ∧
    ((divideToChunks [1, 2, 3, 4, 5, 6, 7, 8, 9, 10] 3).getLastD []).length = 1 := by
  have h := C3_chunking [1, 2, 3, 4, 5, 6, 7, 8, 9, 10] 3 (by decide)
  refine ⟨?_, h.2.1, h.2.2.1 1 (by decide), ?_⟩
  · rw [h.1]; decide
  · rw [h.2.2.2 (by decide)]; decide

/-! ### Checksum-index lemmas -/

theorem buildMapGo_wf (chunks : List Buffer) :
    ∀ (cs : List Buffer) (i : Nat) (m : CMap),
      (∀ w e, mapGet m w = some e → EntryOk chunks e) →
      (∀ j, cs[j]? = chunks[i + j]?) →
      ∀ w e, mapGet (buildMapGo cs i m) w = some e → EntryOk chunks e := by
  intro cs
  induction cs with
  | nil => intro i m hm _ w e hget; exact hm w e hget
  | cons ch rest ih =>
    intro i m hm hcs w e hget
    refine ih (i + 1) _ ?_ ?_ w e hget
    · intro w' e' hget'
      rw [mapSet, mapGet] at hget'
      by_cases hw : w' = adler32 ch
      · rw [if_pos hw] at hget'
        cases hget'
        refine ⟨ch, ?_, rfl⟩
        have h0 := hcs 0
        simpa using h0.symm
      · rw [if_neg hw] at hget'
        exact hm w' e' hget'
    · intro j
      have := hcs (j + 1)
      simpa [Nat.add_assoc, Nat.add_comm 1 j] using this

theorem buildChecksumMap_wf (chunks : List Buffer) :
    ∀ w e, mapGet (buildChecksumMap chunks) w = some e → EntryOk chunks e := by
  refine buildMapGo_wf chunks chunks 0 [] ?_ ?_
  · intro w e h; cases h
  · intro j; simp

/-- On a verified match, the referenced chunk is in range and its bytes are
exactly the window's bytes (strong-checksum confirmation). -/
theorem matchAt_sound (cmap : CMap) (chunks : List Buffer) (c : Nat) (t : Buffer)
    (pos idx : Nat)
    (hwf : ∀ w e, mapGet cmap w = some e → EntryOk chunks e)
    (h : matchAt cmap c t pos = some idx) :
    pos + c ≤ t.length ∧ chunks[idx]? = some ((t.drop pos).take c) := by
  rw [matchAt] at h
  by_cases hfit : pos + c ≤ t.length
  · rw [if_pos hfit] at h
    refine ⟨hfit, ?_⟩
    generalize hw : (t.drop pos).take c = window at h ⊢
    cases hget : mapGet cmap (adler32 window) with
    | none => rw [hget] at h; cases h
    | some e =>
      rw [hget] at h
      dsimp only at h
      by_cases hs : e.strong = strongChecksum window
      · rw [if_pos hs] at h
        cases h
        obtain ⟨ch, hch, hstr⟩ := hwf _ e hget
        have : ch = window := by
          have := hstr.symm.trans hs
          simpa [strongChecksum] using this
        rw [this] at hch
        exact hch
      · rw [if_neg hs] at h; cases h
  · rw [if_neg hfit] at h; cases h

/-! ### Reconstruction lemmas -/

theorem concatChunks_flush (chunks : List Buffer) (p : Buffer) (rest : List Instruction) :
    concatChunks (rebuildChunks chunks (flushLiteral p ++ rest)) =
      (concatChunks (rebuildChunks chunks rest)).map (p ++ ·) := by
  rw [flushLiteral]
  by_cases hp : p.isEmpty
  · rw [if_pos hp]
    have : p = [] := List.isEmpty_iff.mp hp
    subst this
    simp only [List.nil_append]
    cases concatChunks (rebuildChunks chunks rest) with
    | none => simp
    | some r => simp
  · rw [if_neg hp]
    simp [rebuildChunks, concatChunks]

/-- Dropping at an in-range position exposes that byte (`getD pos 0`). -/
theorem drop_eq_getD_cons :
    ∀ (l : Buffer) (pos : Nat), pos < l.length →
      l.drop pos = l.getD pos 0 :: l.drop (pos + 1) := by
  intro l
  induction l with
  | nil => intro pos h; simp at h
  | cons x xs ih =>
    intro pos h
    cases pos with
    | zero => simp
    | succ pos =>
      simp only [List.drop_succ_cons, List.getD_cons_succ]
      exact ih pos (by simpa using h)

/-! ### The scan loop rebuilds the remaining target -/

theorem genGo_rebuild (chunks : List Buffer) (cmap : CMap) (c : Nat) (t : Buffer)
    (hc : 0 < c)
    (hwf : ∀ w e, mapGet cmap w = some e → EntryOk chunks e) :
    ∀ fuel pos pending, t.length - pos < fuel →
      concatChunks (rebuildChunks chunks (genGo cmap c t fuel pos pending)) =
        some (pending ++ t.drop pos) := by
  intro fuel
  induction fuel with
  | zero => intro pos pending h; omega
  | succ fuel ih =>
    intro pos pending hfuel
    by_cases hpos : pos < t.length
    · rw [genGo, if_pos hpos]
      cases hm : matchAt cmap c t pos with
      | some idx =>
        obtain ⟨hfit, hchunk⟩ := matchAt_sound cmap chunks c t pos idx hwf hm
        rw [concatChunks_flush]
        rw [show rebuildChunks chunks
            (Instruction.copyRef idx :: genGo cmap c t fuel (pos + c) []) =
            chunks[idx]? :: rebuildChunks chunks (genGo cmap c t fuel (pos + c) [])
          from rfl]
        rw [hchunk, concatChunks, ih (pos + c) [] (by omega)]
        have hwin : (t.drop pos).take c ++ t.drop (pos + c) = t.drop pos := by
          have hdd : List.drop c (List.drop pos t) = List.drop (pos + c) t := by
            rw [List.drop_drop]
          rw [← hdd, List.take_append_drop]
        simp [hwin]
      | none =>
        rw [ih (pos + 1) (pending ++ [t.getD pos 0]) (by omega)]
        rw [List.append_assoc]
        congr 2
        exact (drop_eq_getD_cons t pos hpos).symm
    · rw [genGo, if_neg hpos]
      have hdrop : t.drop pos = [] := List.drop_eq_nil_iff.mpr (by omega)
      rw [hdrop, List.append_nil]
      rw [flushLiteral]
      by_cases hp : pending.isEmpty
      · rw [if_pos hp, List.isEmpty_iff.mp hp]
        rfl
      · rw [if_neg hp]
        simp [rebuildChunks, concatChunks]

theorem roundTrip_total (o t : Buffer) (c : Nat) (hc : 0 < c) :
    rebuildTargetFromOriginal o (generateInstructions o t c) c = some t := by
  rw [rebuildTargetFromOriginal, generateInstructions]
  rw [genGo_rebuild (divideToChunks o c) _ c t hc
    (buildChecksumMap_wf (divideToChunks o c)) (t.length + 1) 0 [] (by omega)]
  simp

/-- Claim C1: the round trip — rebuilding the target from the original and
the generated instruction stream reproduces the target byte-for-byte, for
every pair of buffers (empty ones included) and every chunk size `> 0`. -/
theorem C1_roundtrip (o t : Buffer) (c : Nat) (hc : 0 < c) :
    rebuildTargetFromOriginal o (generateInstructions o t c) c = some t :=
  roundTrip_total o t c hc

/-- Witness for C1 at `o = [1,2,3,4,5]`, `t = [9,9,3,4,5,6]`, `c = 2`. -/
theorem C1_roundtrip_witness :
    rebuildTargetFromOriginal [1, 2, 3, 4, 5]
      (generateInstructions [1, 2, 3, 4, 5] [9, 9, 3, 4, 5, 6] 2) 2 =
      some [9, 9, 3, 4, 5, 6] :=
  C1_roundtrip [1, 2, 3, 4, 5] [9, 9, 3, 4, 5, 6] 2 (by decide)

/-! ### Reconstruction error handling -/

theorem rebuild_of_out_of_range (chunks : List Buffer) :
    ∀ ins : List Instruction,
      (∃ i, Instruction.copyRef i ∈ ins ∧ chunks.length ≤ i) →
      concatChunks (rebuildChunks chunks ins) = none := by
  intro ins
  induction ins with
  | nil => rintro ⟨i, hmem, _⟩; simp at hmem
  | cons x rest ih =>
    rintro ⟨i, hmem, hge⟩
    rcases List.mem_cons.mp hmem with hx | hx
    · cases hx
      have hnone : chunks[i]? = none := List.getElem?_eq_none hge
      simp [rebuildChunks, hnone, concatChunks]
    · have hrest : concatChunks (rebuildChunks chunks rest) = none :=
        ih ⟨i, hx, hge⟩
      cases x with
      | copyRef j =>
        cases hj : chunks[j]? with
        | none => simp [rebuildChunks, hj, concatChunks]
        | some ch => simp [rebuildChunks, hj, concatChunks, hrest]
      | literal b => simp [rebuildChunks, concatChunks, hrest]

theorem rebuildChunks_cons_copy (chunks : List Buffer) (i : Nat) (rest : List Instruction) :
    rebuildChunks chunks (.copyRef i :: rest) = chunks[i]? :: rebuildChunks chunks rest := rfl

theorem rebuildChunks_cons_lit (chunks : List Buffer) (b : Buffer) (rest : List Instruction) :
    rebuildChunks chunks (.literal b :: rest) = some b :: rebuildChunks chunks rest := rfl

theorem concatChunks_cons_some (b : Buffer) (l : List (Option Buffer)) :
    concatChunks (some b :: l) = (concatChunks l).map (b ++ ·) := rfl

theorem rebuild_of_in_range (chunks : List Buffer) :
    ∀ ins : List Instruction,
      (∀ i, Instruction.copyRef i ∈ ins → i < chunks.length) →
      concatChunks (rebuildChunks chunks ins) =
        some ((ins.map (instructionBytes chunks)).flatten) := by
  intro ins
  induction ins with
  | nil => intro _; rfl
  | cons x rest ih =>
    intro h
    have hrest := ih (fun i hi => h i (List.mem_cons_of_mem x hi))
    cases x with
    | copyRef j =>
      have hj : j < chunks.length := h j (List.mem_cons_self _ rest)
      have hsome : chunks[j]? = some (chunks.getD j []) := by
        rw [List.getElem?_eq_getElem hj, List.getD_eq_getElem chunks [] hj]
      rw [rebuildChunks_cons_copy, hsome, concatChunks_cons_some, hrest]
      simp [instructionBytes]
    | literal b =>
      rw [rebuildChunks_cons_lit, concatChunks_cons_some, hrest]
      simp [instructionBytes]

/-- Claim C5: an out-of-range `CopyRef` makes reconstruction fail with an
error (`none`, modelling the `Buffer.concat` throw on the `undefined`
chunk) instead of substituting data; when every `CopyRef` is in range, the
result is the concatenation of the referenced chunks and literal runs in
instruction order. -/
theorem C5_rebuild_errors (o : Buffer) (ins : List Instruction) (c : Nat)
    (hc : 0 < c) :
    ((∃ i, Instruction.copyRef i ∈ ins ∧ (divideToChunks o c).length ≤ i) →
      rebuildTargetFromOriginal o ins c = none) ∧
    ((∀ i, Instruction.copyRef i ∈ ins → i < (divideToChunks o c).length) →
      rebuildTargetFromOriginal o ins c =
        some ((ins.map (instructionBytes (divideToChunks o c))).flatten)) := by
  constructor
  · intro h; exact rebuild_of_out_of_range (divideToChunks o c) ins h
  · intro h; exact rebuild_of_in_range (divideToChunks o c) ins h

/-- Witness for C5: with two original chunks, `CopyRef 5` makes the rebuild
fail, while in-range instructions concatenate in order. -/
theorem C5_rebuild_errors_witness :
    rebuildTargetFromOriginal [1, 2, 3, 4] [.copyRef 5] 2 = none ∧
    rebuildTargetFromOriginal [1, 2, 3, 4] [.copyRef 1, .literal [7]] 2 =
      some [3, 4, 7] := by
  constructor
  · exact (C5_rebuild_errors [1, 2, 3, 4] [.copyRef 5] 2 (by decide)).1
      ⟨5, by simp, by decide⟩
  · have h := (C5_rebuild_errors [1, 2, 3, 4] [.copyRef 1, .literal [7]] 2
      (by decide)).2 (by
        intro i hi
        simp at hi
        subst hi
        decide)
    rw [h]; decide

/-! ### Generated chunk references are always in range -/

theorem genGo_copyRef_lt (chunks : List Buffer) (cmap : CMap) (c : Nat) (t : Buffer)
    (hwf : ∀ w e, mapGet cmap w = some e → EntryOk chunks e) :
    ∀ fuel pos pending i,
      Instruction.copyRef i ∈ genGo cmap c t fuel pos pending →
      i < chunks.length := by
  intro fuel
  induction fuel with
  | zero => intro pos pending i h; simp [genGo] at h
  | succ fuel ih =>
    intro pos pending i h
    rw [genGo] at h
    by_cases hpos : pos < t.length
    · rw [if_pos hpos] at h
      cases hm : matchAt cmap c t pos with
      | some idx =>
        rw [hm] at h
        rcases List.mem_append.mp h with hf | hf
        · rw [flushLiteral] at hf
          by_cases hp : pending.isEmpty
          · rw [if_pos hp] at hf; simp at hf
          · rw [if_neg hp] at hf; simp at hf
        · rcases List.mem_cons.mp hf with he | he
          · cases he
            obtain ⟨_, hchunk⟩ := matchAt_sound cmap chunks c t pos i hwf hm
            by_contra hge
            rw [List.getElem?_eq_none (by omega)] at hchunk
            cases hchunk
          · exact ih (pos + c) [] i he
      | none =>
        rw [hm] at h
        exact ih (pos + 1) (pending ++ [t.getD pos 0]) i h
    · rw [if_neg hpos, flushLiteral] at h
      by_cases hp : pending.isEmpty
      · rw [if_pos hp] at h; simp at h
      · rw [if_neg hp] at h; simp at h

/-- Claim C9 (implicit): every `CopyRef` index that `generateInstructions`
emits is in range of the original's chunk table, so feeding its output to
`rebuildTargetFromOriginal` with the same original and chunk size never
hits the out-of-range reconstruction error. -/
theorem C9_indices_in_range (o t : Buffer) (c : Nat) (hc : 0 < c) :
    (∀ i, Instruction.copyRef i ∈ generateInstructions o t c →
      i < (divideToChunks o c).length) ∧
    rebuildTargetFromOriginal o (generateInstructions o t c) c ≠ none := by
  constructor
  · intro i h
    exact genGo_copyRef_lt (divideToChunks o c) _ c t
      (buildChecksumMap_wf (divideToChunks o c)) (t.length + 1) 0 [] i h
  · rw [roundTrip_total o t c hc]
    simp

/-- Witness for C9 at `o = [1,2,3,4]`, `t = [1,2,9]`, `c = 2`, whose
instruction stream contains `CopyRef 0`. -/
theorem C9_indices_in_range_witness :
    0 < (divideToChunks [1, 2, 3, 4] 2).length ∧
    rebuildTargetFromOriginal [1, 2, 3, 4]
      (generateInstructions [1, 2, 3, 4] [1, 2, 9] 2) 2 ≠ none :=
  ⟨(C9_indices_in_range [1, 2, 3, 4] [1, 2, 9] 2 (by decide)).1 0 (by decide),
   (C9_indices_in_range [1, 2, 3, 4] [1, 2, 9] 2 (by decide)).2⟩

/-! ### Literal structure of the generated stream -/

theorem slice_extend (t : Buffer) (s n : Nat) (h : s + n < t.length) :
    (t.drop s).take (n + 1) = (t.drop s).take n ++ [t.getD (s + n) 0] := by
  rw [List.take_succ]
  congr 1
  have h1 : (t.drop s)[n]? = t[s + n]? := List.getElem?_drop t s n
  rw [h1, List.getElem?_eq_getElem h, List.getD_eq_getElem t 0 h]
  rfl

/-- Every literal emitted by the scan loop is a nonempty contiguous slice
of the target, provided the pending accumulator is one (true initially,
when it is empty). -/
theorem genGo_literal_slices (cmap : CMap) (c : Nat) (t : Buffer) :
    ∀ fuel pos pending,
      pending.length ≤ pos →
      pending = (t.drop (pos - pending.length)).take pending.length →
      ∀ b, Instruction.literal b ∈ genGo cmap c t fuel pos pending →
        b ≠ [] ∧ isSlice b t := by
  intro fuel
  induction fuel with
  | zero => intro pos pending _ _ b h; simp [genGo] at h
  | succ fuel ih =>
    intro pos pending hle hslice b h
    have hflush : ∀ p : Buffer, Instruction.literal b ∈ flushLiteral p →
        p ≠ [] ∧ b = p := by
      intro p hp
      rw [flushLiteral] at hp
      by_cases hpe : p.isEmpty
      · rw [if_pos hpe] at hp; simp at hp
      · rw [if_neg hpe] at hp
        simp at hp
        exact ⟨by simpa [List.isEmpty_iff] using hpe, hp⟩
    rw [genGo] at h
    by_cases hpos : pos < t.length
    · rw [if_pos hpos] at h
      cases hm : matchAt cmap c t pos with
      | some idx =>
        rw [hm] at h
        rcases List.mem_append.mp h with hf | hf
        · obtain ⟨hpne, hbp⟩ := hflush pending hf
          subst hbp
          exact ⟨hpne, ⟨pos - b.length, hslice⟩⟩
        · rcases List.mem_cons.mp hf with he | he
          · cases he
          · exact ih (pos + c) [] (by simp) (by simp) b he
      | none =>
        rw [hm] at h
        refine ih (pos + 1) (pending ++ [t.getD pos 0]) (by simp; omega) ?_ b h
        have hlen : (pending ++ [t.getD pos 0]).length = pending.length + 1 := by
          simp
        rw [hlen]
        have hidx : pos + 1 - (pending.length + 1) = pos - pending.length := by
          omega
        rw [hidx]
        have hpos' : pos - pending.length + pending.length = pos := by omega
        rw [slice_extend t (pos - pending.length) pending.length (by omega)]
        rw [hpos', ← hslice]
    · rw [if_neg hpos] at h
      obtain ⟨hpne, hbp⟩ := hflush pending h
      subst hbp
      exact ⟨hpne, ⟨pos - b.length, hslice⟩⟩

/-- The scan never emits two adjacent `Literal` instructions: a literal is
only ever flushed right before a `CopyRef` or at the very end. -/
theorem genGo_chain (cmap : CMap) (c : Nat) (t : Buffer) :
    ∀ fuel pos pending,
      List.Chain' (fun a b => a.isLit = false ∨ b.isLit = false)
        (genGo cmap c t fuel pos pending) := by
  intro fuel
  induction fuel with
  | zero => intro pos pending; simp [genGo]
  | succ fuel ih =>
    intro pos pending
    rw [genGo]
    by_cases hpos : pos < t.length
    · rw [if_pos hpos]
      cases hm : matchAt cmap c t pos with
      | some idx =>
        have hrest := ih (pos + c) []
        have hcons : List.Chain' (fun a b => a.isLit = false ∨ b.isLit = false)
            (Instruction.copyRef idx :: genGo cmap c t fuel (pos + c) []) := by
          rw [List.chain'_cons']
          exact ⟨fun y _ => Or.inl rfl, hrest⟩
        rw [flushLiteral]
        by_cases hp : pending.isEmpty
        · rw [if_pos hp]; simpa using hcons
        · rw [if_neg hp]
          simp only [List.singleton_append]
          rw [List.chain'_cons']
          refine ⟨fun y hy => ?_, hcons⟩
          simp at hy
          subst hy
          exact Or.inr rfl
      | none => exact ih (pos + 1) (pending ++ [t.getD pos 0])
    · rw [if_neg hpos, flushLiteral]
      by_cases hp : pending.isEmpty
      · rw [if_pos hp]; simp
      · rw [if_neg hp]; simp

/-- Claim C7: literal coalescing — the generated stream never contains two
adjacent `Literal` instructions (each maximal run of non-matching bytes is
flushed as a single `Literal`), and every `Literal` is a nonempty
contiguous slice of the target (exactly the run's bytes, in order). -/
theorem C7_literal_coalescing (o t : Buffer) (c : Nat) (hc : 0 < c) :
    List.Chain' (fun a b => a.isLit = false ∨ b.isLit = false)
      (generateInstructions o t c) ∧
    (∀ b, Instruction.literal b ∈ generateInstructions o t c →
      b ≠ [] ∧ isSlice b t) := by
  constructor
  · exact genGo_chain _ c t (t.length + 1) 0 []
  · intro b h
    exact genGo_literal_slices _ c t (t.length + 1) 0 [] (by simp) (by simp) b h

/-- Witness for C7 at `o = [1,2,3,4]`, `t = [9,1,2,3,4]`, `c = 2` (output
`[Literal [9], CopyRef 0, CopyRef 1]`). -/
theorem C7_literal_coalescing_witness :
    List.Chain' (fun a b => a.isLit = false ∨ b.isLit = false)
      (generateInstructions [1, 2, 3, 4] [9, 1, 2, 3, 4] 2) ∧
    ([9] ≠ ([] : Buffer) ∧ isSlice [9] [9, 1, 2, 3, 4]) :=
  ⟨(C7_literal_coalescing [1, 2, 3, 4] [9, 1, 2, 3, 4] 2 (by decide)).1,
   (C7_literal_coalescing [1, 2, 3, 4] [9, 1, 2, 3, 4] 2 (by decide)).2
     [9] (by decide)⟩

/-- Claim C10 (implicit): no `Literal` instruction in the generated stream
is empty — the pending accumulator is only flushed when it holds bytes. -/
theorem C10_literals_nonempty (o t : Buffer) (c : Nat) (hc : 0 < c) :
    ∀ b, Instruction.literal b ∈ generateInstructions o t c → b ≠ [] := by
  intro b h
  exact (genGo_literal_slices _ c t (t.length + 1) 0 [] (by simp) (by simp) b h).1

/-- Witness for C10: the literal `[9]` emitted for
`o = [1,2,3,4]`, `t = [9,1,2,3,4]`, `c = 2` is nonempty. -/
theorem C10_literals_nonempty_witness : [9] ≠ ([] : Buffer) :=
  C10_literals_nonempty [1, 2, 3, 4] [9, 1, 2, 3, 4] 2 (by decide) [9] (by decide)

/-! ### Scan behaviour when no window fits -/

/-- Once the remaining target is shorter than a window, the scan consumes
it byte-by-byte into the pending literal and flushes at the end. -/
theorem genGo_tail (cmap : CMap) (c : Nat) (t : Buffer) :
    ∀ fuel pos pending, t.length - pos < fuel → t.length < pos + c →
      genGo cmap c t fuel pos pending = flushLiteral (pending ++ t.drop pos) := by
  intro fuel
  induction fuel with
  | zero => intro pos pending h _; omega
  | succ fuel ih =>
    intro pos pending hfuel hshort
    rw [genGo]
    by_cases hpos : pos < t.length
    · rw [if_pos hpos]
      cases hm : matchAt cmap c t pos with
      | some idx =>
        exfalso
        rw [matchAt, if_neg (by omega)] at hm
        cases hm
      | none =>
        rw [ih (pos + 1) (pending ++ [t.getD pos 0]) (by omega) (by omega)]
        rw [List.append_assoc]
        show flushLiteral (pending ++ ([t.getD pos 0] ++ t.drop (pos + 1))) =
          flushLiteral (pending ++ t.drop pos)
        congr 2
        exact (drop_eq_getD_cons t pos hpos).symm
    · rw [if_neg hpos]
      have hdrop : t.drop pos = [] := List.drop_eq_nil_iff.mpr (by omega)
      rw [hdrop, List.append_nil]

/-- Claim C8: an empty target yields an empty instruction sequence, and a
nonempty target shorter than the chunk size yields exactly one `Literal`
holding the whole target. -/
theorem C8_small_target (o t : Buffer) (c : Nat) (hc : 0 < c) :
    (t = [] → generateInstructions o t c = []) ∧
    (t ≠ [] → t.length < c → generateInstructions o t c = [.literal t]) := by
  constructor
  · intro ht
    subst ht
    rfl
  · intro htne hlt
    rw [generateInstructions, genGo_tail _ c t (t.length + 1) 0 [] (by omega) (by omega)]
    rw [List.drop_zero, List.nil_append, flushLiteral,
      if_neg (by simpa [List.isEmpty_iff] using htne)]

/-- Witness for C8: empty target and the 2-byte target with chunk size 3. -/
theorem C8_small_target_witness :
    generateInstructions [1, 2, 3, 4] [] 3 = [] ∧
    generateInstructions [1, 2, 3, 4] [8, 9] 3 = [.literal [8, 9]] :=
  ⟨(C8_small_target [1, 2, 3, 4] [] 3 (by decide)).1 rfl,
   (C8_small_target [1, 2, 3, 4] [8, 9] 3 (by decide)).2 (by decide) (by decide)⟩

/-! ### The identity diff, under pairwise-distinct weak checksums -/

theorem divideToChunks_length (b : Buffer) (c : Nat) (hc : 0 < c) :
    (divideToChunks b c).length = (b.length + c - 1) / c :=
  divideToChunksGo_length c hc _ b (by omega)

theorem divideToChunks_getD (b : Buffer) (c : Nat) (hc : 0 < c) (k : Nat)
    (hk : k < (divideToChunks b c).length) :
    (divideToChunks b c).getD k [] = (b.drop (k * c)).take c :=
  divideToChunksGo_getD c hc _ b k (by omega) hk

theorem buildMapGo_get_other :
    ∀ (cs : List Buffer) (i : Nat) (m : CMap) (w : Nat),
      (∀ j, j < cs.length → adler32 (cs.getD j []) ≠ w) →
      mapGet (buildMapGo cs i m) w = mapGet m w := by
  intro cs
  induction cs with
  | nil => intro i m w _; rfl
  | cons ch rest ih =>
    intro i m w h
    rw [buildMapGo, ih (i + 1) _ w (fun j hj => h (j + 1) (by simpa using hj))]
    rw [mapSet, mapGet, if_neg (fun hw => h 0 (by simp) (by simpa using hw.symm))]

theorem buildMapGo_get_distinct :
    ∀ (cs : List Buffer) (i : Nat) (m : CMap) (k : Nat),
      k < cs.length →
      List.Pairwise (fun a b => adler32 a ≠ adler32 b) cs →
      mapGet (buildMapGo cs i m) (adler32 (cs.getD k [])) =
        some ⟨i + k, strongChecksum (cs.getD k [])⟩ := by
  intro cs
  induction cs with
  | nil => intro i m k hk; simp at hk
  | cons ch rest ih =>
    intro i m k hk hdist
    obtain ⟨hhead, htail⟩ := List.pairwise_cons.mp hdist
    cases k with
    | zero =>
      rw [buildMapGo]
      rw [buildMapGo_get_other rest (i + 1) _ (adler32 ((ch :: rest).getD 0 []))
        (fun j hj => ?_)]
      · simp only [List.getD_cons_zero]
        rw [mapSet, mapGet, if_pos rfl]
        simp
      · simp only [List.getD_cons_zero]
        have hmem : rest.getD j [] ∈ rest := by
          rw [List.getD_eq_getElem rest [] hj]
          exact List.getElem_mem hj
        exact fun hw => hhead _ hmem hw.symm
    | succ k =>
      rw [buildMapGo]
      simp only [List.getD_cons_succ]
      rw [ih (i + 1) _ k (by simpa using hk) htail]
      congr 2
      omega

/-- With pairwise-distinct weak checksums among the original's chunks, the
window at chunk boundary `k` (a full chunk) matches exactly chunk `k` when
the target is the original itself. -/
theorem matchAt_identity (B : Buffer) (c : Nat) (hc : 0 < c)
    (hdist : List.Pairwise (fun a b => adler32 a ≠ adler32 b) (divideToChunks B c))
    (k : Nat) (hfull : k * c + c ≤ B.length) :
    matchAt (buildChecksumMap (divideToChunks B c)) c B (k * c) = some k := by
  have hkn : k < (divideToChunks B c).length := by
    rw [divideToChunks_length B c hc]
    have h1 : k + 1 ≤ B.length / c := (Nat.le_div_iff_mul_le hc).mpr (by
      rw [Nat.succ_mul]; omega)
    have h2 : B.length / c ≤ (B.length + c - 1) / c :=
      Nat.div_le_div_right (by omega)
    omega
  have hwin : (B.drop (k * c)).take c = (divideToChunks B c).getD k [] :=
    (divideToChunks_getD B c hc k hkn).symm
  rw [matchAt, if_pos hfull, hwin]
  rw [buildChecksumMap,
    buildMapGo_get_distinct (divideToChunks B c) 0 [] k hkn hdist]
  dsimp only
  rw [if_pos rfl]
  simp

theorem genGo_identity (B : Buffer) (c : Nat) (hc : 0 < c)
    (hdist : List.Pairwise (fun a b => adler32 a ≠ adler32 b) (divideToChunks B c)) :
    ∀ d k fuel, k + d = B.length / c → B.length - k * c < fuel →
      genGo (buildChecksumMap (divideToChunks B c)) c B fuel (k * c) [] =
        (List.range' k d).map .copyRef ++
          flushLiteral (B.drop (B.length / c * c)) := by
  intro d
  induction d with
  | zero =>
    intro k fuel hk hfuel
    have hkc : k = B.length / c := by omega
    subst hkc
    have hdm : B.length / c * c + B.length % c = B.length :=
      Nat.div_add_mod' B.length c
    have hmlt : B.length % c < c := Nat.mod_lt _ hc
    rw [genGo_tail _ c B fuel _ [] hfuel (by omega)]
    simp [List.range']
  | succ d ih =>
    intro k fuel hk hfuel
    have hfull : k * c + c ≤ B.length := by
      have h1 : (k + 1) * c ≤ B.length / c * c := Nat.mul_le_mul_right c (by omega)
      have h2 : B.length / c * c ≤ B.length := Nat.div_mul_le_self _ _
      rw [Nat.succ_mul] at h1
      omega
    have hpos : k * c < B.length := by omega
    cases fuel with
    | zero => omega
    | succ fuel =>
      rw [genGo, if_pos hpos, matchAt_identity B c hc hdist k hfull]
      show flushLiteral [] ++
          Instruction.copyRef k ::
            genGo (buildChecksumMap (divideToChunks B c)) c B fuel (k * c + c) [] =
          (List.range' k (d + 1)).map .copyRef ++
            flushLiteral (B.drop (B.length / c * c))
      rw [show k * c + c = (k + 1) * c from (Nat.succ_mul k c).symm]
      rw [ih (k + 1) fuel (by omega) (by rw [Nat.succ_mul]; omega)]
      rw [List.range'_succ k d 1]
      rw [flushLiteral, if_pos (by simp)]
      simp

theorem diffGo_identity (B : Buffer) (c : Nat) (hc : 0 < c)
    (hdist : List.Pairwise (fun a b => adler32 a ≠ adler32 b) (divideToChunks B c)) :
    ∀ d k fuel, k + d = B.length / c → B.length - k * c < fuel →
      diffGo (buildChecksumMap (divideToChunks B c)) c B fuel (k * c) = [] := by
  intro d
  induction d with
  | zero =>
    intro k fuel hk hfuel
    have hkc : k = B.length / c := by omega
    subst hkc
    have hdm : B.length / c * c + B.length % c = B.length :=
      Nat.div_add_mod' B.length c
    have hmlt : B.length % c < c := Nat.mod_lt _ hc
    cases fuel with
    | zero => rfl
    | succ fuel => rw [diffGo, if_neg (by omega)]
  | succ d ih =>
    intro k fuel hk hfuel
    have hfull : k * c + c ≤ B.length := by
      have h1 : (k + 1) * c ≤ B.length / c * c := Nat.mul_le_mul_right c (by omega)
      have h2 : B.length / c * c ≤ B.length := Nat.div_mul_le_self _ _
      rw [Nat.succ_mul] at h1
      omega
    cases fuel with
    | zero => omega
    | succ fuel =>
      rw [diffGo, if_pos hfull, matchAt_identity B c hc hdist k hfull]
      show diffGo (buildChecksumMap (divideToChunks B c)) c B fuel (k * c + c) = []
      rw [show k * c + c = (k + 1) * c from (Nat.succ_mul k c).symm]
      exact ih (k + 1) fuel (by omega) (by rw [Nat.succ_mul]; omega)

/-- Counterexample to claim C2 as stated: with `original = target`, (i) a
trailing partial chunk is emitted as a `Literal` (`[7]` with chunk size 2),
so the output is not CopyRef-only; (ii) an Adler-32 collision between the
two chunks of `[0,2,0,1,0,1]` (both weak-checksum to the same key, and
last-write-wins keeps only chunk 1) makes `findDifferingChunks` return
three windows instead of an empty sequence; (iii) duplicate chunk contents
(`[97,97]` twice) make the indices `[1, 1]` rather than `0, 1, …`. -/
theorem C2_identity_counterexample :
    Instruction.literal [7] ∈ generateInstructions [7] [7] 2 ∧
    findDifferingChunks [0, 2, 0, 1, 0, 1] [0, 2, 0, 1, 0, 1] 3 =
      [[0, 2, 0], [2, 0, 1], [0, 1, 0]] ∧
    ¬ findDifferingChunks [0, 2, 0, 1, 0, 1] [0, 2, 0, 1, 0, 1] 3 = [] ∧
    generateInstructions [97, 97, 97, 97] [97, 97, 97, 97] 2 =
      [.copyRef 1, .copyRef 1] :=
  ⟨by decide, by decide, by decide, by decide⟩

/-- Claim C2, amended: if `original = target = B`, `chunkSizeBytes = c > 0`,
and the chunks of `B` have pairwise-distinct weak (Adler-32) checksums,
then `findDifferingChunks` returns an empty sequence, and
`generateInstructions` emits `CopyRef 0, …, CopyRef (⌊L/c⌋ - 1)` followed by
a final `Literal` holding the trailing `L mod c` bytes when `c` does not
divide `L` (and nothing else when it does). -/
theorem C2_identity_amended (B : Buffer) (c : Nat) (hc : 0 < c)
    (hdist : List.Pairwise (fun a b => adler32 a ≠ adler32 b) (divideToChunks B c)) :
    findDifferingChunks B B c = [] ∧
    generateInstructions B B c =
      (List.range (B.length / c)).map .copyRef ++
        (if B.length % c = 0 then []
         else [.literal (B.drop (B.length / c * c))]) := by
  have hdm : B.length / c * c + B.length % c = B.length :=
    Nat.div_add_mod' B.length c
  constructor
  · rw [findDifferingChunks]
    have h := diffGo_identity B c hc hdist (B.length / c) 0 (B.length + 1)
      (by omega) (by rw [Nat.zero_mul]; omega)
    rw [Nat.zero_mul] at h
    exact h
  · rw [generateInstructions]
    have h := genGo_identity B c hc hdist (B.length / c) 0 (B.length + 1)
      (by omega) (by rw [Nat.zero_mul]; omega)
    rw [Nat.zero_mul] at h
    rw [h, List.range_eq_range']
    congr 1
    by_cases hmod : B.length % c = 0
    · rw [if_pos hmod]
      have hdrop : B.drop (B.length / c * c) = [] :=
        List.drop_eq_nil_iff.mpr (by omega)
      rw [hdrop]
      rfl
    · rw [if_neg hmod, flushLiteral, if_neg ?_]
      rw [List.isEmpty_iff, List.drop_eq_nil_iff]
      omega

/-- Witness for the amended C2 at `B = [1,2,3,4,5]`, `c = 2` (chunks
`[1,2]`, `[3,4]`, `[5]` have distinct Adler-32 checksums). -/
theorem C2_identity_amended_witness :
    findDifferingChunks [1, 2, 3, 4, 5] [1, 2, 3, 4, 5] 2 = [] ∧
    generateInstructions [1, 2, 3, 4, 5] [1, 2, 3, 4, 5] 2 =
      [.copyRef 0, .copyRef 1, .literal [5]] := by
  have h := C2_identity_amended [1, 2, 3, 4, 5] 2 (by decide) (by decide)
  exact ⟨h.1, by rw [h.2]; decide⟩

/-! ### One step of the sliding-window scan -/

/-- Claim C6: in both scan loops a fitting window at `pos` matches iff its
weak checksum is a key of the index and the window's strong checksum
equals the indexed entry's; on a match the cursor advances by
`chunkSizeBytes` (flushing the pending literal and emitting the entry's
index in `generateInstructions`, nothing in `findDifferingChunks`), and on
a miss one byte is consumed and the cursor advances by 1 (accumulated into
the pending literal in `generateInstructions`, the window pushed in
`findDifferingChunks`). -/
theorem C6_scan_step (cmap : CMap) (c : Nat) (t : Buffer) (fuel pos : Nat)
    (pending : Buffer) (hpos : pos < t.length) (hfit : pos + c ≤ t.length) :
    (∀ e, mapGet cmap (adler32 ((t.drop pos).take c)) = some e →
      (e.strong = strongChecksum ((t.drop pos).take c) →
        genGo cmap c t (fuel + 1) pos pending =
          flushLiteral pending ++
            .copyRef e.index :: genGo cmap c t fuel (pos + c) [] ∧
        diffGo cmap c t (fuel + 1) pos = diffGo cmap c t fuel (pos + c)) ∧
      (e.strong ≠ strongChecksum ((t.drop pos).take c) →
        genGo cmap c t (fuel + 1) pos pending =
          genGo cmap c t fuel (pos + 1) (pending ++ [t.getD pos 0]) ∧
        diffGo cmap c t (fuel + 1) pos =
          (t.drop pos).take c :: diffGo cmap c t fuel (pos + 1))) ∧
    (mapGet cmap (adler32 ((t.drop pos).take c)) = none →
      genGo cmap c t (fuel + 1) pos pending =
        genGo cmap c t fuel (pos + 1) (pending ++ [t.getD pos 0]) ∧
      diffGo cmap c t (fuel + 1) pos =
        (t.drop pos).take c :: diffGo cmap c t fuel (pos + 1)) := by
  constructor
  · intro e hget
    constructor
    · intro hs
      have hm : matchAt cmap c t pos = some e.index := by
        rw [matchAt, if_pos hfit, hget]
        dsimp only
        rw [if_pos hs]
      constructor
      · rw [genGo, if_pos hpos, hm]
      · rw [diffGo, if_pos hfit, hm]
    · intro hs
      have hm : matchAt cmap c t pos = none := by
        rw [matchAt, if_pos hfit, hget]
        dsimp only
        rw [if_neg hs]
      constructor
      · rw [genGo, if_pos hpos, hm]
      · rw [diffGo, if_pos hfit, hm]
  · intro hget
    have hm : matchAt cmap c t pos = none := by
      rw [matchAt, if_pos hfit, hget]
    constructor
    · rw [genGo, if_pos hpos, hm]
    · rw [diffGo, if_pos hfit, hm]

/-- Witness for C6: one matching step at position 0 of `t = [1,2,9,9]`
against the index of `o = [1,2,3,4]` with `c = 2`, and the resulting
cursor advance by the chunk size in both loops. -/
theorem C6_scan_step_witness :
    genGo (buildChecksumMap (divideToChunks [1, 2, 3, 4] 2)) 2 [1, 2, 9, 9]
        3 0 [] =
      flushLiteral [] ++
        .copyRef 0 ::
          genGo (buildChecksumMap (divideToChunks [1, 2, 3, 4] 2)) 2 [1, 2, 9, 9]
            2 2 [] ∧
    diffGo (buildChecksumMap (divideToChunks [1, 2, 3, 4] 2)) 2 [1, 2, 9, 9]
        3 0 =
      diffGo (buildChecksumMap (divideToChunks [1, 2, 3, 4] 2)) 2 [1, 2, 9, 9]
        2 2 :=
  ((C6_scan_step (buildChecksumMap (divideToChunks [1, 2, 3, 4] 2)) 2
      [1, 2, 9, 9] 2 0 [] (by decide) (by decide)).1
    ⟨0, [1, 2]⟩ (by decide)).1 (by decide)

/-! ### No chunk-size validation in the source -/

theorem genGo_empty_map (c : Nat) (t : Buffer) :
    ∀ fuel pos pending, t.length - pos < fuel →
      genGo [] c t fuel pos pending = flushLiteral (pending ++ t.drop pos) := by
  intro fuel
  induction fuel with
  | zero => intro pos pending h; omega
  | succ fuel ih =>
    intro pos pending hfuel
    rw [genGo]
    by_cases hpos : pos < t.length
    · rw [if_pos hpos]
      cases hm : matchAt [] c t pos with
      | some idx =>
        exfalso
        rw [matchAt] at hm
        by_cases hfit : pos + c ≤ t.length
        · rw [if_pos hfit] at hm
          cases hm
        · rw [if_neg hfit] at hm
          cases hm
      | none =>
        rw [ih (pos + 1) (pending ++ [t.getD pos 0]) (by omega)]
        rw [List.append_assoc]
        show flushLiteral (pending ++ ([t.getD pos 0] ++ t.drop (pos + 1))) =
          flushLiteral (pending ++ t.drop pos)
        congr 2
        exact (drop_eq_getD_cons t pos hpos).symm
    · rw [if_neg hpos]
      have hdrop : t.drop pos = [] := List.drop_eq_nil_iff.mpr (by omega)
      rw [hdrop, List.append_nil]

/-- Counterexample to claim C4: nothing rejects `chunkSizeBytes = 0`.
`generateInstructions` with an empty original happily processes the target
byte-by-byte and returns it as a `Literal`, and `rebuildTargetFromOriginal`
applies the instructions normally — no error is raised before (or during)
processing. -/
theorem C4_validation_counterexample :
    generateInstructions [] [42] 0 = [.literal [42]] ∧
    rebuildTargetFromOriginal [] [.literal [5]] 0 = some [5] :=
  ⟨by decide, by decide⟩

/-- Claim C4, amended: no public operation validates `chunkSizeBytes`.
With `chunkSizeBytes = 0`, `generateInstructions` over an empty original
consumes any nonempty target byte-by-byte and returns it as one `Literal`
(instead of rejecting), while the `divideToChunks` loop on a nonempty
buffer never terminates (it produces an empty chunk on every iteration,
i.e. consumes any amount of fuel without finishing). -/
theorem C4_validation_amended :
    (∀ t : Buffer, t ≠ [] → generateInstructions [] t 0 = [.literal t]) ∧
    (∀ (b : Buffer) (fuel : Nat), b ≠ [] →
      divideToChunksGo fuel b 0 = List.replicate fuel []) := by
  constructor
  · intro t ht
    rw [generateInstructions]
    rw [show buildChecksumMap (divideToChunks [] 0) = [] from rfl]
    rw [genGo_empty_map 0 t (t.length + 1) 0 [] (by omega)]
    rw [List.drop_zero, List.nil_append, flushLiteral,
      if_neg (by simpa [List.isEmpty_iff] using ht)]
  · intro b fuel hb
    induction fuel with
    | zero => rfl
    | succ fuel ih =>
      rw [divideToChunksGo, if_neg (by simpa [List.isEmpty_iff] using hb)]
      rw [List.drop_zero, ih]
      rfl

/-- Witness for the amended C4 at `t = [5]` and `b = [7]`, `fuel = 3`. -/
theorem C4_validation_amended_witness :
    generateInstructions [] [5] 0 = [.literal [5]] ∧
    divideToChunksGo 3 [7] 0 = List.replicate 3 [] :=
  ⟨C4_validation_amended.1 [5] (by decide),
   C4_validation_amended.2 [7] 3 (by decide)⟩

-- Sanity checks against the repository's unit tests ("1234567890" etc.).
example : divideToChunks [49, 50, 51, 52, 53, 54, 55, 56, 57, 48] 3 =
    [[49, 50, 51], [52, 53, 54], [55, 56, 57], [48]] := by decide

example : findDifferingChunks [49, 50, 51, 52, 53, 54, 55, 56, 57, 48]
    [49, 50, 51, 52, 53, 54, 55, 56, 57, 48] 1 = [] := by decide

example : findDifferingChunks [49, 50, 51, 52, 53, 54, 55, 56, 57, 48]
    [49, 50, 51, 52, 53, 54, 55, 56, 57, 88, 89, 90] 1 =
    [[88], [89], [90]] := by decide

example : generateInstructions [49, 50, 51, 52] [57, 49, 50, 51, 52] 2 =
    [.literal [57], .copyRef 0, .copyRef 1] := by decide

example : rebuildTargetFromOriginal [49, 50, 51, 52]
    [.literal [57], .copyRef 0, .copyRef 1] 2 = some [57, 49, 50, 51, 52] := by
  decide
